import Mathlib

/-!
Verification development for the core of the `fjall` LSM storage engine:
shallow embeddings of the memtable lookup, the snapshot tracker, the
transaction oracle commit path, the segment writer finalization, the
file-descriptor table, the tree configuration and the segment-id encoding,
together with theorems settling the specification claims about them.

Byte strings are modelled as `List Nat`, sequence numbers as `Nat` with the
`u64` bound `2 ^ 64` made explicit where wrap-around or `u64::MAX` matters.
-/

/-- `u64::MAX`, the sequence number used as the range lower bound in
`MemTable::get` (`SeqNo::MAX`). -/
def UMAX : Nat := 2 ^ 64 - 1

/-- Strict lexicographic order on byte strings, as Rust compares `&[u8]`
and `Bytes` (element-wise, shorter prefix first). -/
def lexLtB : List Nat → List Nat → Bool
  | [], [] => false
  | [], _ :: _ => true
  | _ :: _, [] => false
  | a :: as, b :: bs => decide (a < b) || (a == b && lexLtB as bs)

/-- `pfx p l` holds when `p` is a prefix of `l`; embeds
`slice::starts_with` used by `MemTable::get` to detect the end of the
prefix range. -/
def pfx : List Nat → List Nat → Bool
  | [], _ => true
  | _ :: _, [] => false
  | a :: ps, b :: ls => a == b && pfx ps ls

/-- Modelled from the spec: `ValueType` (enum `Value`, `Tombstone`) lives in
`value.rs`, which is not part of the provided sources; the spec gives the
enum order `Value < Tombstone`. -/
inductive VT where
  | value : VT
  | tomb : VT
deriving DecidableEq, Repr

/-- Discriminant of `ValueType`, used for its derived order. -/
def vtOrd : VT → Nat
  | .value => 0
  | .tomb => 1

/-- Modelled from the spec: `ParsedInternalKey` (in the missing `value.rs`)
is the tuple (user_key, seqno, value_type). -/
structure IKey where
  userKey : List Nat
  seqno : Nat
  vtype : VT
deriving DecidableEq, Repr

/-- Modelled from the spec: the `ParsedInternalKey` ordering — ascending
user_key, then descending seqno, then value_type. -/
def ikeyLt (a b : IKey) : Bool :=
  lexLtB a.userKey b.userKey ||
    (a.userKey == b.userKey &&
      (decide (b.seqno < a.seqno) ||
        (a.seqno == b.seqno && decide (vtOrd a.vtype < vtOrd b.vtype))))

/-- A memtable entry: internal key plus user value. -/
def Entry : Type := IKey × List Nat

instance : DecidableEq Entry := by
  unfold Entry
  infer_instance

/-- The range lower bound `ParsedInternalKey::new(prefix, SeqNo::MAX,
ValueType::Tombstone)` from `MemTable::get`. -/
def lowerBound (k : List Nat) : IKey := ⟨k, UMAX, .tomb⟩

/-- The loop body of `MemTable::get`: walk the entries of the range in
ascending internal-key order; stop with `none` at the first entry whose
user key does not start with the searched prefix; otherwise return the
first entry passing the optional strict seqno filter. -/
def walkGet (k : List Nat) (s : Option Nat) : List Entry → Option Entry
  | [] => none
  | e :: rest =>
    if pfx k e.1.userKey = false then none
    else
      match s with
      | none => some e
      | some t => if e.1.seqno < t then some e else walkGet k (some t) rest

/-- `MemTable::get`: the skip-map range `(prefix, SeqNo::MAX, Tombstone)..`
is the entries not below the lower bound, in sorted order; the memtable is
modelled as its sorted entry list. -/
def mtGet (t : List Entry) (k : List Nat) (s : Option Nat) : Option Entry :=
  walkGet k s (t.filter fun e => !ikeyLt e.1 (lowerBound k))

/-- `MemTable::insert`: ordered insert into the skip map, replacing the
value when the internal key is already present. -/
def insertMT (t : List Entry) (ik : IKey) (v : List Nat) : List Entry :=
  match t with
  | [] => [(ik, v)]
  | e :: rest =>
    if ikeyLt ik e.1 then (ik, v) :: e :: rest
    else if ik = e.1 then (ik, v) :: rest
    else e :: insertMT rest ik v

/-- Well-formedness of the memtable model: entries strictly sorted by the
internal-key order (the skip map's invariant). -/
@[reducible] def MtSorted (t : List Entry) : Prop :=
  List.Pairwise (fun a b : Entry => ikeyLt a.1 b.1 = true) t

example : mtGet (insertMT [] ⟨[97], 3, .value⟩ [1]) [97] none =
    some (⟨[97], 3, .value⟩, [1]) := by decide

theorem pfx_refl (k : List Nat) : pfx k k = true := by
  induction k with
  | nil => rfl
  | cons a ps ih => simp [pfx, ih]

theorem lexLtB_irrefl (a : List Nat) : lexLtB a a = false := by
  induction a with
  | nil => rfl
  | cons x xs ih => simp [lexLtB, ih]

theorem lexLtB_asymm : ∀ {a b : List Nat}, lexLtB a b = true → lexLtB b a = false
  | [], [] => by simp [lexLtB]
  | [], _ :: _ => by simp [lexLtB]
  | _ :: _, [] => by simp [lexLtB]
  | a :: as, b :: bs => by
    simp only [lexLtB, Bool.or_eq_true, decide_eq_true_eq, Bool.and_eq_true, beq_iff_eq,
      Bool.or_eq_false_iff, Bool.and_eq_false_iff, decide_eq_false_iff_not,
      beq_eq_false_iff_ne, ne_eq]
    rintro (hab | ⟨rfl, h⟩)
    · exact ⟨by omega, .inl (by omega)⟩
    · exact ⟨by omega, .inr (lexLtB_asymm h)⟩

/-- A proper extension of `k` is lexicographically greater than `k`. -/
theorem lexLtB_of_pfx_ne : ∀ {k c : List Nat}, pfx k c = true → c ≠ k → lexLtB k c = true
  | [], [], _, hne => absurd rfl hne
  | [], _ :: _, _, _ => by simp [lexLtB]
  | _ :: _, [], hp, _ => by simp [pfx] at hp
  | a :: ps, b :: ls, hp, hne => by
    simp only [pfx, Bool.and_eq_true, beq_iff_eq] at hp
    obtain ⟨rfl, hp⟩ := hp
    have hne' : ls ≠ ps := fun h => hne (by rw [h])
    simp [lexLtB, lexLtB_of_pfx_ne hp hne']

/-- Contiguity of the prefix range: if `c` starts with `k`, `h` does not,
and `h` is not lexicographically below `k`, then `c < h` is impossible —
in fact `c` is strictly below `h` never holds; precisely, `h` lies
strictly above every `k`-prefixed string. -/
theorem lexLtB_pfx_block : ∀ {k c h : List Nat}, pfx k c = true → pfx k h = false →
    lexLtB h k = false → lexLtB c h = true
  | [], _, h, _, hph, _ => by simp [pfx] at hph
  | _ :: _, _, [], _, _, hlt => by simp [lexLtB] at hlt
  | a :: ps, [], x :: xs, hpc, _, _ => by simp [pfx] at hpc
  | a :: ps, b :: cs, x :: xs, hpc, hph, hlt => by
    simp only [pfx, Bool.and_eq_true, beq_iff_eq] at hpc
    obtain ⟨rfl, hpc2⟩ := hpc
    simp only [lexLtB, Bool.or_eq_false_iff, Bool.and_eq_false_iff,
      decide_eq_false_iff_not, beq_eq_false_iff_ne, ne_eq] at hlt
    obtain ⟨hxa, hrest⟩ := hlt
    rcases Nat.lt_or_ge a x with hax | hax
    · simp [lexLtB, hax]
    · have hxa' : x = a := by omega
      subst hxa'
      simp only [pfx, beq_self_eq_true, Bool.true_and] at hph
      have hxs : lexLtB xs ps = false := by
        rcases hrest with h | h
        · exact absurd rfl h
        · exact h
      simp [lexLtB, lexLtB_pfx_block hpc2 hph hxs]

theorem ikey_not_lt_bound_of_eq {e : IKey} {k : List Nat} (hk : e.userKey = k)
    (hs : e.seqno < UMAX) : ikeyLt e (lowerBound k) = false := by
  simp only [ikeyLt, lowerBound, hk, lexLtB_irrefl, Bool.false_or, beq_self_eq_true,
    Bool.true_and, Bool.or_eq_false_iff, decide_eq_false_iff_not, Bool.and_eq_false_iff,
    beq_eq_false_iff_ne, ne_eq]
  exact ⟨by omega, .inl (by omega)⟩

theorem ikey_not_lt_bound_of_ext {e : IKey} {k : List Nat} (hp : pfx k e.userKey = true)
    (hne : e.userKey ≠ k) : ikeyLt e (lowerBound k) = false := by
  have h1 : lexLtB e.userKey k = false := lexLtB_asymm (lexLtB_of_pfx_ne hp hne)
  simp [ikeyLt, lowerBound, h1, beq_eq_false_iff_ne, hne]

theorem key_not_lt_of_not_lt_bound {e : IKey} {k : List Nat}
    (h : ikeyLt e (lowerBound k) = false) : lexLtB e.userKey k = false := by
  simp only [ikeyLt, lowerBound, Bool.or_eq_false_iff] at h
  exact h.1

theorem key_le_of_ikeyLt {a b : IKey} (h : ikeyLt a b = true) :
    lexLtB a.userKey b.userKey = true ∨ a.userKey = b.userKey := by
  simp only [ikeyLt, Bool.or_eq_true, Bool.and_eq_true, beq_iff_eq] at h
  rcases h with h | ⟨h, _⟩
  · exact .inl h
  · exact .inr h

theorem seqno_le_of_ikeyLt {a b : IKey} (hk : a.userKey = b.userKey)
    (h : ikeyLt a b = true) : b.seqno ≤ a.seqno := by
  simp only [ikeyLt, hk, lexLtB_irrefl, Bool.false_or, beq_self_eq_true, Bool.true_and,
    Bool.or_eq_true, decide_eq_true_eq, Bool.and_eq_true, beq_iff_eq] at h
  rcases h with h | ⟨h, _⟩ <;> omega

/-- The seqno visibility filter of the `get` loop: with `None` every entry
passes; with `Some t` only entries whose seqno is strictly below `t`. -/
def acceptS (s : Option Nat) (e : Entry) : Bool :=
  match s with
  | none => true
  | some t => decide (e.1.seqno < t)

theorem walkGet_cons (k : List Nat) (s : Option Nat) (e : Entry) (rest : List Entry) :
    walkGet k s (e :: rest) =
      if pfx k e.1.userKey = false then none
      else if acceptS s e then some e else walkGet k s rest := by
  cases s with
  | none =>
    by_cases hp : pfx k e.1.userKey = false
    · simp [walkGet, hp]
    · simp [walkGet, hp, acceptS]
  | some t =>
    by_cases hp : pfx k e.1.userKey = false
    · simp [walkGet, hp]
    · by_cases ha : e.1.seqno < t
      · simp [walkGet, hp, acceptS, ha]
      · simp [walkGet, hp, acceptS, ha]

theorem walkGet_eq_none_iff (k : List Nat) (s : Option Nat) :
    ∀ l : List Entry, List.Pairwise (fun a b : Entry => ikeyLt a.1 b.1 = true) l →
      (∀ e ∈ l, ikeyLt e.1 (lowerBound k) = false) →
      (∀ e ∈ l, pfx k e.1.userKey = true → e.1.userKey = k) →
      (walkGet k s l = none ↔ ∀ e ∈ l, e.1.userKey = k → acceptS s e = false) := by
  intro l
  induction l with
  | nil => intro _ _ _; simp [walkGet]
  | cons h rest ih =>
    intro hp hb hext
    rw [List.pairwise_cons] at hp
    obtain ⟨hhead, htail⟩ := hp
    rw [walkGet_cons]
    by_cases hph : pfx k h.1.userKey = false
    · rw [if_pos hph]
      have hnok : ∀ e ∈ h :: rest, e.1.userKey ≠ k := by
        intro e he
        rcases List.mem_cons.mp he with rfl | hmem
        · intro hek
          rw [hek] at hph
          simp [pfx_refl] at hph
        · intro hek
          have hlt := hhead e hmem
          rcases key_le_of_ikeyLt hlt with hl | heq
          · have hbnd := key_not_lt_of_not_lt_bound (hb h (List.mem_cons_self h rest))
            rw [hek] at hl
            simp [hbnd] at hl
          · rw [heq, hek] at hph
            simp [pfx_refl] at hph
      constructor
      · intro _ e he hek
        exact absurd hek (hnok e he)
      · intro _; rfl
    · rw [if_neg hph]
      rw [Bool.not_eq_false] at hph
      have hkey : h.1.userKey = k := hext h (List.mem_cons_self h rest) hph
      by_cases hacc : acceptS s h = true
      · rw [if_pos hacc]
        constructor
        · intro hcontra; simp at hcontra
        · intro hall
          have hf := hall h (List.mem_cons_self h rest) hkey
          simp [hf] at hacc
      · rw [if_neg hacc]
        rw [Bool.not_eq_true] at hacc
        have hbr : ∀ e ∈ rest, ikeyLt e.1 (lowerBound k) = false := fun e he =>
          hb e (List.mem_cons_of_mem h he)
        have hexr : ∀ e ∈ rest, pfx k e.1.userKey = true → e.1.userKey = k := fun e he =>
          hext e (List.mem_cons_of_mem h he)
        rw [ih htail hbr hexr]
        constructor
        · intro hall e he hek
          rcases List.mem_cons.mp he with rfl | hmem
          · exact hacc
          · exact hall e hmem hek
        · intro hall e he hek
          exact hall e (List.mem_cons_of_mem h he) hek

theorem walkGet_eq_some (k : List Nat) (s : Option Nat) :
    ∀ l : List Entry, List.Pairwise (fun a b : Entry => ikeyLt a.1 b.1 = true) l →
      (∀ e ∈ l, ikeyLt e.1 (lowerBound k) = false) →
      (∀ e ∈ l, pfx k e.1.userKey = true → e.1.userKey = k) →
      ∀ e, walkGet k s l = some e →
        e ∈ l ∧ e.1.userKey = k ∧ acceptS s e = true ∧
          ∀ e' ∈ l, e'.1.userKey = k → acceptS s e' = true → e'.1.seqno ≤ e.1.seqno := by
  intro l
  induction l with
  | nil => intro _ _ _ e he; simp [walkGet] at he
  | cons h rest ih =>
    intro hp hb hext e hsome
    rw [List.pairwise_cons] at hp
    obtain ⟨hhead, htail⟩ := hp
    rw [walkGet_cons] at hsome
    by_cases hph : pfx k h.1.userKey = false
    · rw [if_pos hph] at hsome
      simp at hsome
    · rw [if_neg hph] at hsome
      rw [Bool.not_eq_false] at hph
      have hkey : h.1.userKey = k := hext h (List.mem_cons_self h rest) hph
      by_cases hacc : acceptS s h = true
      · rw [if_pos hacc] at hsome
        obtain rfl : h = e := by injection hsome
        refine ⟨List.mem_cons_self h rest, hkey, hacc, ?_⟩
        intro e' he' hk' _
        rcases List.mem_cons.mp he' with rfl | hmem
        · exact le_refl _
        · exact seqno_le_of_ikeyLt (by rw [hkey, hk']) (hhead e' hmem)
      · rw [if_neg hacc] at hsome
        rw [Bool.not_eq_true] at hacc
        have hbr : ∀ e ∈ rest, ikeyLt e.1 (lowerBound k) = false := fun e he =>
          hb e (List.mem_cons_of_mem h he)
        have hexr : ∀ e ∈ rest, pfx k e.1.userKey = true → e.1.userKey = k := fun e he =>
          hext e (List.mem_cons_of_mem h he)
        obtain ⟨hmem, hk2, hacc2, hmax⟩ := ih htail hbr hexr e hsome
        refine ⟨List.mem_cons_of_mem h hmem, hk2, hacc2, ?_⟩
        intro e' he' hk' hacc'
        rcases List.mem_cons.mp he' with rfl | hmem'
        · simp [hacc] at hacc'
        · exact hmax e' hmem' hk' hacc'

theorem walkGet_ext_hit (k : List Nat) (s : Option Nat) :
    ∀ l : List Entry, List.Pairwise (fun a b : Entry => ikeyLt a.1 b.1 = true) l →
      (∀ e ∈ l, ikeyLt e.1 (lowerBound k) = false) →
      (∀ e ∈ l, e.1.userKey ≠ k) →
      (∃ e ∈ l, pfx k e.1.userKey = true ∧ acceptS s e = true) →
      ∃ e', walkGet k s l = some e' ∧ e' ∈ l ∧ pfx k e'.1.userKey = true ∧
        e'.1.userKey ≠ k ∧ acceptS s e' = true := by
  intro l
  induction l with
  | nil => intro _ _ _ hex; simp at hex
  | cons h rest ih =>
    intro hp hb hne hex
    rw [List.pairwise_cons] at hp
    obtain ⟨hhead, htail⟩ := hp
    rw [walkGet_cons]
    by_cases hph : pfx k h.1.userKey = false
    · exfalso
      obtain ⟨w, hwmem, hwp, _⟩ := hex
      rcases List.mem_cons.mp hwmem with rfl | hwmem'
      · simp [hwp] at hph
      · have hbnd := key_not_lt_of_not_lt_bound (hb h (List.mem_cons_self h rest))
        have hblock := lexLtB_pfx_block hwp hph hbnd
        have hlt := hhead w hwmem'
        rcases key_le_of_ikeyLt hlt with hl | heq
        · simp [lexLtB_asymm hblock] at hl
        · rw [heq] at hph
          simp [hwp] at hph
    · rw [if_neg hph]
      rw [Bool.not_eq_false] at hph
      by_cases hacc : acceptS s h = true
      · rw [if_pos hacc]
        exact ⟨h, rfl, List.mem_cons_self h rest, hph,
          hne h (List.mem_cons_self h rest), hacc⟩
      · rw [if_neg hacc]
        rw [Bool.not_eq_true] at hacc
        have hbr : ∀ e ∈ rest, ikeyLt e.1 (lowerBound k) = false := fun e he =>
          hb e (List.mem_cons_of_mem h he)
        have hner : ∀ e ∈ rest, e.1.userKey ≠ k := fun e he =>
          hne e (List.mem_cons_of_mem h he)
        have hexr : ∃ e ∈ rest, pfx k e.1.userKey = true ∧ acceptS s e = true := by
          obtain ⟨w, hwmem, hwp, hwacc⟩ := hex
          rcases List.mem_cons.mp hwmem with rfl | hwmem'
          · simp [hacc] at hwacc
          · exact ⟨w, hwmem', hwp, hwacc⟩
        obtain ⟨e', hw, hmem, hp', hne', hacc'⟩ := ih htail hbr hner hexr
        exact ⟨e', hw, List.mem_cons_of_mem h hmem, hp', hne', hacc'⟩

theorem mem_rangeList {t : List Entry} {k : List Nat} {e : Entry} :
    e ∈ t.filter (fun e => !ikeyLt e.1 (lowerBound k)) ↔
      e ∈ t ∧ ikeyLt e.1 (lowerBound k) = false := by
  simp [List.mem_filter]

theorem rangeList_sorted {t : List Entry} {k : List Nat} (h : MtSorted t) :
    List.Pairwise (fun a b : Entry => ikeyLt a.1 b.1 = true)
      (t.filter fun e => !ikeyLt e.1 (lowerBound k)) :=
  List.Pairwise.sublist (List.filter_sublist t) h

/-- The memtable of scenario S1: `("abc","v0",0)`, `("abc","v99",99)`,
`("abc","v255",255)` inserted into an empty memtable (bytes in ASCII). -/
def s1Table : List Entry :=
  insertMT (insertMT (insertMT [] ⟨[97, 98, 99], 0, .value⟩ [118, 48])
    ⟨[97, 98, 99], 99, .value⟩ [118, 57, 57]) ⟨[97, 98, 99], 255, .value⟩ [118, 50, 53, 53]

/-- A memtable holding only the key `"abc0"`, a strict extension of the
searched key `"abc"`. -/
def extTable : List Entry := [(⟨[97, 98, 99, 48], 0, .value⟩, [118])]

/-- C2 (amended): on a memtable none of whose keys strictly extend `K` and
whose seqnos are below `u64::MAX`, `get(K, None)` returns the entry for `K`
with the highest seqno (`None` when `K` is absent) and `get(K, Some s)`
returns the entry for `K` with the largest seqno strictly below `s` (`None`
when there is none); in particular the S1 scenario returns the seqno-255,
seqno-99 and seqno-0 entries for `None`, `Some 100` and `Some 50`. -/
theorem mtGet_version_query :
    (∀ (t : List Entry) (k : List Nat), MtSorted t →
      (∀ e ∈ t, pfx k e.1.userKey = true → e.1.userKey = k) →
      (∀ e ∈ t, e.1.seqno < UMAX) →
      ((mtGet t k none = none ↔ ∀ e ∈ t, e.1.userKey ≠ k) ∧
       (∀ e, mtGet t k none = some e → e ∈ t ∧ e.1.userKey = k ∧
         ∀ e' ∈ t, e'.1.userKey = k → e'.1.seqno ≤ e.1.seqno) ∧
       (∀ sq, (mtGet t k (some sq) = none ↔
         ∀ e ∈ t, e.1.userKey = k → ¬ e.1.seqno < sq)) ∧
       (∀ sq e, mtGet t k (some sq) = some e → e ∈ t ∧ e.1.userKey = k ∧ e.1.seqno < sq ∧
         ∀ e' ∈ t, e'.1.userKey = k → e'.1.seqno < sq → e'.1.seqno ≤ e.1.seqno))) ∧
    mtGet s1Table [97, 98, 99] none = some (⟨[97, 98, 99], 255, .value⟩, [118, 50, 53, 53]) ∧
    mtGet s1Table [97, 98, 99] (some 100) = some (⟨[97, 98, 99], 99, .value⟩, [118, 57, 57]) ∧
    mtGet s1Table [97, 98, 99] (some 50) = some (⟨[97, 98, 99], 0, .value⟩, [118, 48]) := by
  refine ⟨?_, by decide, by decide, by decide⟩
  intro t k hwf hext hseq
  have hLp := @rangeList_sorted t k hwf
  have hLb : ∀ e ∈ t.filter (fun e => !ikeyLt e.1 (lowerBound k)),
      ikeyLt e.1 (lowerBound k) = false := fun e he => (mem_rangeList.mp he).2
  have hLext : ∀ e ∈ t.filter (fun e => !ikeyLt e.1 (lowerBound k)),
      pfx k e.1.userKey = true → e.1.userKey = k := fun e he =>
    hext e (mem_rangeList.mp he).1
  have hmemL : ∀ e ∈ t, e.1.userKey = k →
      e ∈ t.filter (fun e => !ikeyLt e.1 (lowerBound k)) := fun e he hk =>
    mem_rangeList.mpr ⟨he, ikey_not_lt_bound_of_eq hk (hseq e he)⟩
  refine ⟨?_, ?_, ?_, ?_⟩
  · have base := walkGet_eq_none_iff k none _ hLp hLb hLext
    constructor
    · intro h0 e he hek
      have hfalse := base.mp h0 e (hmemL e he hek) hek
      simp [acceptS] at hfalse
    · intro hall
      apply base.mpr
      intro e heL hek
      exact absurd hek (hall e (mem_rangeList.mp heL).1)
  · intro e hsome
    obtain ⟨hmem, hk, _, hmax⟩ := walkGet_eq_some k none _ hLp hLb hLext e hsome
    exact ⟨(mem_rangeList.mp hmem).1, hk,
      fun e' he' hk' => hmax e' (hmemL e' he' hk') hk' rfl⟩
  · intro sq
    have base := walkGet_eq_none_iff k (some sq) _ hLp hLb hLext
    constructor
    · intro h0 e he hek
      have hfalse := base.mp h0 e (hmemL e he hek) hek
      simp [acceptS] at hfalse
      omega
    · intro hall
      apply base.mpr
      intro e heL hek
      have := hall e (mem_rangeList.mp heL).1 hek
      simp [acceptS]
      omega
  · intro sq e hsome
    obtain ⟨hmem, hk, hacc, hmax⟩ := walkGet_eq_some k (some sq) _ hLp hLb hLext e hsome
    simp [acceptS] at hacc
    refine ⟨(mem_rangeList.mp hmem).1, hk, hacc, ?_⟩
    intro e' he' hk' hsq'
    exact hmax e' (hmemL e' he' hk') hk' (by simp [acceptS]; omega)

/-- C2 counterexample: the memtable holds no entry for `K = "abc"`, only
the strictly longer key `"abc0"`, yet `get("abc", None)` is not `None` (and
does not return an entry for `K`): it returns the `"abc0"` entry. -/
theorem mtGet_version_query_cx :
    (∀ e ∈ extTable, e.1.userKey ≠ [97, 98, 99]) ∧
      mtGet extTable [97, 98, 99] none =
        some (⟨[97, 98, 99, 48], 0, .value⟩, [118]) := by decide

/-- Witness: the general part of `mtGet_version_query` applied to the S1
memtable. -/
theorem mtGet_version_query_witness :
    mtGet s1Table [97, 98, 99] none = none ↔
      ∀ e ∈ s1Table, e.1.userKey ≠ [97, 98, 99] :=
  (mtGet_version_query.1 s1Table [97, 98, 99] (by decide) (by decide) (by decide)).1

/-- C10: `MemTable::get` performs prefix matching at the public interface:
on a memtable with no entry whose user key equals `K` but containing an
entry whose user key strictly extends `K` and whose seqno passes the
optional filter, `get(K, seqno)` returns `Some` of a strictly-longer-keyed
entry instead of `None`. -/
theorem mtGet_prefix_match (t : List Entry) (k : List Nat) (s : Option Nat)
    (hwf : MtSorted t) (hne : ∀ e ∈ t, e.1.userKey ≠ k)
    (hex : ∃ e ∈ t, pfx k e.1.userKey = true ∧ acceptS s e = true) :
    ∃ e', mtGet t k s = some e' ∧ e' ∈ t ∧ pfx k e'.1.userKey = true ∧
      e'.1.userKey ≠ k ∧ acceptS s e' = true := by
  have hLp := @rangeList_sorted t k hwf
  have hLb : ∀ e ∈ t.filter (fun e => !ikeyLt e.1 (lowerBound k)),
      ikeyLt e.1 (lowerBound k) = false := fun e he => (mem_rangeList.mp he).2
  have hLne : ∀ e ∈ t.filter (fun e => !ikeyLt e.1 (lowerBound k)),
      e.1.userKey ≠ k := fun e he => hne e (mem_rangeList.mp he).1
  have hexL : ∃ e ∈ t.filter (fun e => !ikeyLt e.1 (lowerBound k)),
      pfx k e.1.userKey = true ∧ acceptS s e = true := by
    obtain ⟨w, hw, hwp, hwa⟩ := hex
    exact ⟨w, mem_rangeList.mpr ⟨hw, ikey_not_lt_bound_of_ext hwp (hne w hw)⟩, hwp, hwa⟩
  obtain ⟨e', hw, hmem, hp', hne', hacc'⟩ := walkGet_ext_hit k s _ hLp hLb hLne hexL
  exact ⟨e', hw, (mem_rangeList.mp hmem).1, hp', hne', hacc'⟩

/-- Witness: `mtGet_prefix_match` on the `"abc0"`-only memtable searched
with `"abc"`. -/
theorem mtGet_prefix_match_witness :
    ∃ e', mtGet extTable [97, 98, 99] none = some e' ∧ e' ∈ extTable ∧
      pfx [97, 98, 99] e'.1.userKey = true ∧ e'.1.userKey ≠ [97, 98, 99] ∧
      acceptS none e' = true :=
  mtGet_prefix_match extTable [97, 98, 99] none (by decide) (by decide)
    ⟨(⟨[97, 98, 99, 48], 0, .value⟩, [118]), by decide, by decide, by decide⟩

/-- Wrapping `u64`/`usize` subtraction: release-mode Rust semantics of
`a - b` on unsigned 64-bit integers. -/
def u64sub (a b : Nat) : Nat := (a + 2 ^ 64 - b % 2 ^ 64) % 2 ^ 64

theorem u64sub_eq {a b : Nat} (hba : b ≤ a) (ha : a < 2 ^ 64) : u64sub a b = a - b := by
  unfold u64sub
  rw [Nat.mod_eq_of_lt (lt_of_le_of_lt hba ha)]
  have h1 : a + 2 ^ 64 - b = (a - b) + 2 ^ 64 := by omega
  rw [h1, Nat.add_mod_right, Nat.mod_eq_of_lt (by omega)]

/-- State of `SnapshotTrackerInner`: the refcount map `data` (an
association list fixing one iteration order for `DashMap`), the
`safety_gap`, and `lowest_freed_instant`. -/
structure Tracker where
  data : List (Nat × Nat)
  safetyGap : Nat
  lowestFreed : Nat
deriving DecidableEq, Repr

/-- `DashMap::entry(..).and_modify(+1).or_insert(1)` used by `open`. -/
def bumpEntry : List (Nat × Nat) → Nat → List (Nat × Nat)
  | [], s => [(s, 1)]
  | (k, v) :: rest, s =>
    if k = s then (k, (v + 1) % 2 ^ 64) :: rest else (k, v) :: bumpEntry rest s

/-- `DashMap::alter(&seqno, |_, v| v - 1)` used by `close`: decrements only
when the instant is tracked. -/
def decEntry : List (Nat × Nat) → Nat → List (Nat × Nat)
  | [], _ => []
  | (k, v) :: rest, s =>
    if k = s then (k, u64sub v 1) :: rest else (k, v) :: decEntry rest s

/-- `SnapshotTrackerInner::open`. -/
def trOpen (st : Tracker) (s : Nat) : Tracker :=
  { st with data := bumpEntry st.data s }

/-- The `retain` loop of `gc`: keep entries with positive refcount or
above the threshold, folding the minimum retained key with `0` as the
"unset" sentinel. -/
def gcRetain : List (Nat × Nat) → Nat → Nat → List (Nat × Nat) × Nat
  | [], _, acc => ([], acc)
  | (k, v) :: rest, th, acc =>
    if 0 < v ∨ th < k then
      let acc' := if acc = 0 then k else min acc k
      let r := gcRetain rest th acc'
      ((k, v) :: r.1, r.2)
    else gcRetain rest th acc

/-- `SnapshotTrackerInner::gc`: prune the refcount map at
`watermark - safety_gap` and raise `lowest_freed_instant` to
`lowest_retained.saturating_sub(1)` without ever lowering it. -/
def trGc (st : Tracker) (watermark : Nat) : Tracker :=
  let th := u64sub watermark st.safetyGap
  let r := gcRetain st.data th 0
  { data := r.1, safetyGap := st.safetyGap,
    lowestFreed :=
      if st.lowestFreed = 0 then r.2 - 1 else max st.lowestFreed (r.2 - 1) }

/-- `SnapshotTrackerInner::close`: decrement the refcount, then run `gc`
when the instant is a multiple of the safety gap. -/
def trClose (st : Tracker) (s : Nat) : Tracker :=
  let st' := { st with data := decEntry st.data s }
  if s % st.safetyGap = 0 then trGc st' s else st'

/-- `SnapshotTrackerInner::get_seqno_safe_to_gc`. -/
def getSeqnoSafeToGc (st : Tracker) : Nat := st.lowestFreed

/-- The tracker operations a client can interleave. -/
inductive TrOp where
  | op_open (s : Nat)
  | op_close (s : Nat)
  | op_gc (w : Nat)
deriving DecidableEq, Repr

def trStep (st : Tracker) : TrOp → Tracker
  | .op_open s => trOpen st s
  | .op_close s => trClose st s
  | .op_gc w => trGc st w

def trRun (st : Tracker) : List TrOp → Tracker
  | [] => st
  | o :: os => trRun (trStep st o) os

theorem trGc_mono (st : Tracker) (w : Nat) :
    st.lowestFreed ≤ (trGc st w).lowestFreed := by
  unfold trGc
  by_cases h : st.lowestFreed = 0
  · simp [h]
  · simp [h, le_max_left]

theorem trClose_mono (st : Tracker) (s : Nat) :
    st.lowestFreed ≤ (trClose st s).lowestFreed := by
  unfold trClose
  split
  · exact trGc_mono ⟨decEntry st.data s, st.safetyGap, st.lowestFreed⟩ s
  · exact le_refl _

theorem trStep_mono (st : Tracker) (o : TrOp) :
    st.lowestFreed ≤ (trStep st o).lowestFreed := by
  cases o with
  | op_open s => exact le_refl _
  | op_close s => exact trClose_mono st s
  | op_gc w => exact trGc_mono st w

/-- C3: the snapshot tracker's watermark never regresses — across any
sequence of open, close, and gc calls, `get_seqno_safe_to_gc()` is
non-decreasing (so every returned value is at least every previously
returned one). -/
theorem snapshot_watermark_monotonic (st : Tracker) (ops : List TrOp) :
    getSeqnoSafeToGc st ≤ getSeqnoSafeToGc (trRun st ops) := by
  induction ops generalizing st with
  | nil => exact le_refl _
  | cons o os ih => exact le_trans (trStep_mono st o) (ih (trStep st o))

theorem gcRetain_lowest {s th : Nat} : ∀ (l : List (Nat × Nat)) (acc : Nat),
    (∀ p ∈ l, (0 < p.2 ∨ th < p.1) → s + 1 ≤ p.1) →
    (acc = 0 ∨ s + 1 ≤ acc) →
    ((gcRetain l th acc).2 = 0 ∨ s + 1 ≤ (gcRetain l th acc).2) ∧
      ((∃ p ∈ l, 0 < p.2 ∨ th < p.1) → (gcRetain l th acc).2 ≠ 0) ∧
      (acc ≠ 0 → (gcRetain l th acc).2 ≠ 0) := by
  intro l
  induction l with
  | nil =>
    intro acc h hacc
    refine ⟨hacc, by simp [gcRetain], fun h0 => ?_⟩
    simpa [gcRetain] using h0
  | cons p rest ih =>
    intro acc h hacc
    obtain ⟨k, v⟩ := p
    by_cases hr : 0 < v ∨ th < k
    · have hk : s + 1 ≤ k := h (k, v) (List.mem_cons_self _ _) hr
      have hacc' : (if acc = 0 then k else min acc k) = 0 ∨
          s + 1 ≤ (if acc = 0 then k else min acc k) := by
        by_cases h0 : acc = 0
        · simp [h0]; omega
        · rcases hacc with h1 | h1
          · exact absurd h1 h0
          · simp [h0]; omega
      have hne' : (if acc = 0 then k else min acc k) ≠ 0 := by
        by_cases h0 : acc = 0
        · simp [h0]; omega
        · rcases hacc with h1 | h1
          · exact absurd h1 h0
          · simp [h0]; omega
      have hrest : ∀ p ∈ rest, (0 < p.2 ∨ th < p.1) → s + 1 ≤ p.1 := fun p hp =>
        h p (List.mem_cons_of_mem _ hp)
      obtain ⟨ih1, _, ih3⟩ := ih (if acc = 0 then k else min acc k) hrest hacc'
      have hres : gcRetain ((k, v) :: rest) th acc =
          ((k, v) :: (gcRetain rest th (if acc = 0 then k else min acc k)).1,
            (gcRetain rest th (if acc = 0 then k else min acc k)).2) := by
        simp [gcRetain, hr]
      rw [hres]
      exact ⟨ih1, fun _ => ih3 hne', fun _ => ih3 hne'⟩
    · have hres : gcRetain ((k, v) :: rest) th acc = gcRetain rest th acc := by
        simp [gcRetain, hr]
      rw [hres]
      have hrest : ∀ p ∈ rest, (0 < p.2 ∨ th < p.1) → s + 1 ≤ p.1 := fun p hp =>
        h p (List.mem_cons_of_mem _ hp)
      obtain ⟨ih1, ih2, ih3⟩ := ih acc hrest hacc
      refine ⟨ih1, ?_, ih3⟩
      intro hex
      obtain ⟨p, hp, hpr⟩ := hex
      rcases List.mem_cons.mp hp with rfl | hp'
      · exact absurd hpr hr
      · exact ih2 ⟨p, hp', hpr⟩

/-- C4 (amended): if every tracked instant `≤ s` has refcount 0 and some
tracked instant is still retained at gc time (positive refcount, or above
the threshold `watermark - safety_gap`), then after `gc` runs with a
watermark `≥ s + safety_gap`, `get_seqno_safe_to_gc() ≥ s - safety_gap`. -/
theorem snapshot_watermark_progress (st : Tracker) (s w : Nat)
    (hw : s + st.safetyGap ≤ w) (hwb : w < 2 ^ 64)
    (hclosed : ∀ p ∈ st.data, p.1 ≤ s → p.2 = 0)
    (hlive : ∃ p ∈ st.data, 0 < p.2 ∨ u64sub w st.safetyGap < p.1) :
    s - st.safetyGap ≤ getSeqnoSafeToGc (trGc st w) := by
  have hth : u64sub w st.safetyGap = w - st.safetyGap :=
    u64sub_eq (by omega) hwb
  have hths : s ≤ u64sub w st.safetyGap := by omega
  have hret : ∀ p ∈ st.data, (0 < p.2 ∨ u64sub w st.safetyGap < p.1) → s + 1 ≤ p.1 := by
    intro p hp hr
    rcases hr with hv | hk
    · by_contra hle
      have := hclosed p hp (by omega)
      omega
    · omega
  obtain ⟨h1, h2, _⟩ :=
    @gcRetain_lowest s (u64sub w st.safetyGap) st.data 0 hret (.inl rfl)
  have hne := h2 hlive
  have hlow : s + 1 ≤ (gcRetain st.data (u64sub w st.safetyGap) 0).2 := by
    rcases h1 with h | h
    · exact absurd h hne
    · exact h
  show s - st.safetyGap ≤ (trGc st w).lowestFreed
  unfold trGc
  by_cases h0 : st.lowestFreed = 0
  · simp only [h0, if_pos]
    omega
  · simp only [h0, if_neg, if_false]
    have := le_max_right st.lowestFreed
      ((gcRetain st.data (u64sub w st.safetyGap) 0).2 - 1)
    omega

/-- Witness: `snapshot_watermark_progress` on a tracker with gap 5 holding
a closed snapshot at 1 and an open one at 20, gc'd at watermark 15 with
`s = 7`. -/
theorem snapshot_watermark_progress_witness :
    7 - 5 ≤ getSeqnoSafeToGc (trGc ⟨[(1, 0), (20, 1)], 5, 0⟩ 15) :=
  snapshot_watermark_progress ⟨[(1, 0), (20, 1)], 5, 0⟩ 7 15 (by decide)
    (by norm_num) (by decide) ⟨(20, 1), by decide, by decide⟩

/-- C4 counterexample: with safety gap 5, open snapshot 1, close it, and
run gc at watermark 15. Taking `s = 7`, all snapshots `≤ 7` are closed and
the watermark `15 ≥ 7 + 5`, yet the retain pass empties the map, the
`lowest_retained` sentinel stays 0, and `get_seqno_safe_to_gc()` remains
`0 < 7 - 5`. -/
theorem snapshot_watermark_progress_cx :
    getSeqnoSafeToGc
        (trRun ⟨[], 5, 0⟩ [.op_open 1, .op_close 1, .op_gc 15]) = 0 ∧
      ¬ 7 - 5 ≤ getSeqnoSafeToGc
        (trRun ⟨[], 5, 0⟩ [.op_open 1, .op_close 1, .op_gc 15]) := by
  constructor
  · rfl
  · intro h
    have h0 : getSeqnoSafeToGc
        (trRun ⟨[], 5, 0⟩ [.op_open 1, .op_close 1, .op_gc 15]) = 0 := rfl
    omega

/-- Modelled from the spec: `ConflictChecker` (in the missing
`conflict_manager.rs`) summarizes a transaction's read-key and
written-key sets. -/
structure ConflictChecker where
  reads : List (List Nat)
  writes : List (List Nat)
deriving DecidableEq, Repr

/-- Modelled from the spec: `ConflictChecker::has_conflict(other)` is true
iff some key this transaction read was written by `other`. -/
def hasConflict (a b : ConflictChecker) : Bool :=
  a.reads.any fun k => b.writes.contains k

/-- The outcomes of `Oracle::with_commit`. -/
inductive CommitOutcome (E : Type) where
  | ok : CommitOutcome E
  | aborted : E → CommitOutcome E
  | conflicted : CommitOutcome E
deriving DecidableEq, Repr

/-- Oracle state: the committed-writer log (`BTreeMap<u64, ConflictChecker>`
as an ascending association list), the current value of the shared
sequence counter (`SequenceNumberCounter::get`, modelled from the spec),
and the snapshot tracker. -/
structure OracleState where
  committedTxns : List (Nat × ConflictChecker)
  seqno : Nat
  tracker : Tracker
deriving DecidableEq, Repr

/-- `BTreeMap::insert` on the ascending association list. -/
def btreeInsert : List (Nat × ConflictChecker) → Nat → ConflictChecker →
    List (Nat × ConflictChecker)
  | [], ts, cc => [(ts, cc)]
  | (k, v) :: rest, ts, cc =>
    if ts < k then (ts, cc) :: (k, v) :: rest
    else if ts = k then (ts, cc) :: rest
    else (k, v) :: btreeInsert rest ts cc

/-- The committed-writer log after the `snapshot_tracker.close(instant)`
and `committed_txns.retain(|ts, _| *ts > safe_to_gc)` steps of
`with_commit` (these run whether or not the commit conflicts). -/
def prunedTxns (st : OracleState) (instant : Nat) : List (Nat × ConflictChecker) :=
  st.committedTxns.filter fun p =>
    decide (getSeqnoSafeToGc (trClose st.tracker instant) < p.1)

/-- Result of `with_commit`: the outcome, the post-state, and whether the
`apply` closure was run. -/
structure CommitResult (E : Type) where
  outcome : CommitOutcome E
  state : OracleState
  applyRan : Bool

/-- `Oracle::with_commit`: test `has_conflict` against every committed
writer with `commit_ts ≥ instant + 1` (`range((instant + 1)..)`), close the
snapshot and prune the log at the GC watermark, then — when no conflict —
run `apply` (modelled by its result) and on success insert the checker at
the current seqno. -/
def withCommit {E : Type} (st : OracleState) (instant : Nat) (cc : ConflictChecker)
    (applyResult : Except E Unit) : CommitResult E :=
  if st.committedTxns.any fun p => decide (instant + 1 ≤ p.1) && hasConflict cc p.2 then
    ⟨.conflicted, ⟨prunedTxns st instant, st.seqno, trClose st.tracker instant⟩, false⟩
  else
    match applyResult with
    | .error e =>
      ⟨.aborted e, ⟨prunedTxns st instant, st.seqno, trClose st.tracker instant⟩, true⟩
    | .ok _ =>
      ⟨.ok, ⟨btreeInsert (prunedTxns st instant) st.seqno cc, st.seqno,
        trClose st.tracker instant⟩, true⟩

/-- C1: `with_commit` returns `Conflicted` iff the committed-writer log
holds an entry `(commit_ts, other)` with `commit_ts ≥ instant + 1` and
`checker.has_conflict(other)`; in that case the `apply` closure is not run
and the resulting log is only the pruned original — the checker is not
inserted. -/
theorem with_commit_conflict_iff {E : Type} (st : OracleState) (instant : Nat)
    (cc : ConflictChecker) (applyResult : Except E Unit) :
    ((withCommit st instant cc applyResult).outcome = .conflicted ↔
      ∃ p ∈ st.committedTxns, instant + 1 ≤ p.1 ∧ hasConflict cc p.2 = true) ∧
    ((∃ p ∈ st.committedTxns, instant + 1 ≤ p.1 ∧ hasConflict cc p.2 = true) →
      (withCommit st instant cc applyResult).applyRan = false ∧
        (withCommit st instant cc applyResult).state.committedTxns =
          prunedTxns st instant) := by
  have hiff : (st.committedTxns.any fun p =>
      decide (instant + 1 ≤ p.1) && hasConflict cc p.2) = true ↔
      ∃ p ∈ st.committedTxns, instant + 1 ≤ p.1 ∧ hasConflict cc p.2 = true := by
    simp [List.any_eq_true]
  by_cases hconf : (st.committedTxns.any fun p =>
      decide (instant + 1 ≤ p.1) && hasConflict cc p.2) = true
  · have hres : withCommit st instant cc applyResult =
        ⟨.conflicted, ⟨prunedTxns st instant, st.seqno, trClose st.tracker instant⟩,
          false⟩ := by
      unfold withCommit
      rw [if_pos hconf]
    rw [hres]
    exact ⟨⟨fun _ => hiff.mp hconf, fun _ => rfl⟩, fun _ => ⟨rfl, rfl⟩⟩
  · have hnex := fun hex => hconf (hiff.mpr hex)
    have hout : (withCommit st instant cc applyResult).outcome ≠ .conflicted := by
      unfold withCommit
      rw [if_neg hconf]
      cases applyResult with
      | error e => simp
      | ok u => simp
    exact ⟨⟨fun h => absurd h hout, fun hex => absurd hex hnex⟩,
      fun hex => absurd hex hnex⟩

/-- C6: when `apply` fails with `Err(e)` and no conflict was detected,
`with_commit` returns `Aborted(e)` and the checker is not inserted into the
committed-writer log (the log is only the pruned original). -/
theorem with_commit_aborted {E : Type} (st : OracleState) (instant : Nat)
    (cc : ConflictChecker) (e : E)
    (hnoconf : ¬ ∃ p ∈ st.committedTxns, instant + 1 ≤ p.1 ∧ hasConflict cc p.2 = true) :
    (withCommit st instant cc (Except.error e)).outcome = .aborted e ∧
      (withCommit st instant cc (Except.error e)).applyRan = true ∧
      (withCommit st instant cc (Except.error e)).state.committedTxns =
        prunedTxns st instant := by
  have hconf : ¬ (st.committedTxns.any fun p =>
      decide (instant + 1 ≤ p.1) && hasConflict cc p.2) = true := by
    intro hc
    exact hnoconf (by simpa [List.any_eq_true] using hc)
  unfold withCommit
  rw [if_neg hconf]
  exact ⟨rfl, rfl, rfl⟩

/-- A committed-writer log with one writer at commit ts 10 that wrote key
`[1]`, and a committing checker that read key `[1]` at instant 5. -/
def oracleStC : OracleState := ⟨[(10, ⟨[], [[1]]⟩)], 12, ⟨[], 100, 0⟩⟩

/-- Witness: `with_commit_conflict_iff` on `oracleStC`, whose single log
entry conflicts with the reader of key `[1]`. -/
theorem with_commit_conflict_iff_witness :
    ((withCommit oracleStC 5 ⟨[[1]], []⟩ (Except.ok () : Except Unit Unit)).outcome =
        .conflicted ↔
      ∃ p ∈ oracleStC.committedTxns, 5 + 1 ≤ p.1 ∧
        hasConflict ⟨[[1]], []⟩ p.2 = true) ∧
    ((∃ p ∈ oracleStC.committedTxns, 5 + 1 ≤ p.1 ∧
        hasConflict ⟨[[1]], []⟩ p.2 = true) →
      (withCommit oracleStC 5 ⟨[[1]], []⟩ (Except.ok () : Except Unit Unit)).applyRan =
          false ∧
        (withCommit oracleStC 5 ⟨[[1]], []⟩
            (Except.ok () : Except Unit Unit)).state.committedTxns =
          prunedTxns oracleStC 5) :=
  with_commit_conflict_iff oracleStC 5 ⟨[[1]], []⟩ (Except.ok ())

/-- Witness: `with_commit_aborted` on `oracleStC` at instant 20, past the
only committed writer, with a failing `apply`. -/
theorem with_commit_aborted_witness :
    (withCommit oracleStC 20 ⟨[[1]], []⟩ (Except.error ())).outcome = .aborted () ∧
      (withCommit oracleStC 20 ⟨[[1]], []⟩ (Except.error ())).applyRan = true ∧
      (withCommit oracleStC 20 ⟨[[1]], []⟩ (Except.error ())).state.committedTxns =
        prunedTxns oracleStC 20 :=
  with_commit_aborted oracleStC 20 ⟨[[1]], []⟩ () (by decide)

/-- A value consumed by the segment writer. -/
structure WVal where
  key : List Nat
  value : List Nat
  seqno : Nat
  vtype : VT
deriving DecidableEq, Repr

/-- `Value::is_tombstone`. -/
def isTombstone (v : WVal) : Bool := v.vtype == .tomb

/-- State of `segment::writer::Writer`: options, counters, the current
chunk, plus whether the segment directory exists on disk (created by
`Writer::new`, removed again by a zero-item `finish`). -/
structure SegWriter where
  evictTombstones : Bool
  blockSize : Nat
  chunk : List WVal
  blockCount : Nat
  itemCount : Nat
  filePos : Nat
  uncompressedSize : Nat
  firstKey : Option (List Nat)
  lastKey : Option (List Nat)
  tombstoneCount : Nat
  chunkSize : Nat
  lowestSeqno : Nat
  highestSeqno : Nat
  dirExists : Bool
deriving DecidableEq, Repr

/-- `Writer::new`: create the directory, write the version header (its
length is the start offset), start with empty counters and
`lowest_seqno = SeqNo::MAX`. -/
def segWriterNew (evict : Bool) (bs startOffset : Nat) : SegWriter :=
  ⟨evict, bs, [], 0, 0, startOffset, 0, none, none, 0, 0, UMAX, 0, true⟩

/-- The durable side effects of the writer, recorded symbolically. -/
inductive FsOp where
  | appendBlock : Nat → FsOp
  | registerIndexBlock : List Nat → Nat → Nat → FsOp
  | flushBuf : FsOp
  | finishIndex : Nat → FsOp
  | syncBlocksFile : FsOp
  | syncDir : FsOp
  | removeSegmentDir : FsOp
deriving DecidableEq, Repr

/-- `Writer::write_block`, parameterized by the item-size function `sz`
and the serialized-compressed-length function `clen` (CRC, serialization
and LZ4 are external). Appends the compressed chunk, registers it with the
index writer at the pre-update `file_pos`, and updates the counters. -/
def writeBlock (sz : WVal → Nat) (clen : List WVal → Nat) (w : SegWriter) :
    SegWriter × List FsOp :=
  let uncompressedChunkSize := (w.chunk.map sz).sum
  let bytesWritten := clen w.chunk
  let firstKey := match w.chunk with
    | [] => []
    | v :: _ => v.key
  ({ w with
      uncompressedSize := w.uncompressedSize + uncompressedChunkSize,
      filePos := w.filePos + bytesWritten,
      itemCount := w.itemCount + w.chunk.length,
      blockCount := w.blockCount + 1,
      chunk := [] },
    [.appendBlock bytesWritten, .registerIndexBlock firstKey w.filePos bytesWritten])

/-- `Writer::write`: drop tombstones when evicting, otherwise buffer the
item into the chunk, flush the chunk as a block when it reaches the block
size, and update key range and seqno range. -/
def segWrite (sz : WVal → Nat) (clen : List WVal → Nat) (w : SegWriter) (item : WVal) :
    SegWriter × List FsOp :=
  if isTombstone item && w.evictTombstones then (w, [])
  else
    let w1 := if isTombstone item then
        { w with tombstoneCount := w.tombstoneCount + 1 } else w
    let w2 := { w1 with
      chunkSize := w1.chunkSize + sz item,
      chunk := w1.chunk ++ [item] }
    let r := if w2.blockSize ≤ w2.chunkSize then
        (let b := writeBlock sz clen w2; ({ b.1 with chunkSize := 0 }, b.2))
      else (w2, [])
    ({ r.1 with
        firstKey := match r.1.firstKey with
          | none => some item.key
          | some k => some k,
        lastKey := some item.key,
        lowestSeqno := min r.1.lowestSeqno item.seqno,
        highestSeqno := max r.1.highestSeqno item.seqno },
      r.2)

/-- `Writer::finish` (on the ideal filesystem where I/O succeeds): flush
the partial chunk, and either delete the segment directory when no item
was written, or flush, finalize the index with the end offset, fsync the
blocks file and the directory. -/
def segFinish (sz : WVal → Nat) (clen : List WVal → Nat) (w : SegWriter) :
    SegWriter × List FsOp :=
  let r := if w.chunk.isEmpty then (w, ([] : List FsOp)) else writeBlock sz clen w
  if r.1.itemCount = 0 then
    ({ r.1 with dirExists := false }, r.2 ++ [.removeSegmentDir])
  else
    (r.1, r.2 ++ [.flushBuf, .finishIndex r.1.filePos, .syncBlocksFile, .syncDir])

/-- C5: when `finish` runs with zero items written once the partial chunk
is flushed (i.e. the item count and the chunk are both empty), its only
disk effect is the removal of the segment directory — the index is not
finalized and nothing is fsynced — and the segment directory no longer
exists afterwards. -/
theorem writer_finish_empty (sz : WVal → Nat) (clen : List WVal → Nat) (w : SegWriter)
    (h : w.itemCount + w.chunk.length = 0) :
    (segFinish sz clen w).2 = [.removeSegmentDir] ∧
      (segFinish sz clen w).1.dirExists = false := by
  have hchunk : w.chunk = [] := by
    cases hc : w.chunk with
    | nil => rfl
    | cons a l => rw [hc] at h; simp at h
  have hitem : w.itemCount = 0 := by omega
  unfold segFinish
  simp [hchunk, hitem]

/-- A simple size model for the witness: key length plus value length. -/
def szModel (v : WVal) : Nat := v.key.length + v.value.length

/-- A simple compressed-length model for the witness. -/
def clenModel (l : List WVal) : Nat := 4 + (l.map szModel).sum

/-- Witness: `writer_finish_empty` on a freshly created writer (block size
4096, header offset 1) that never wrote an item. -/
theorem writer_finish_empty_witness :
    (segFinish szModel clenModel (segWriterNew false 4096 1)).2 = [.removeSegmentDir] ∧
      (segFinish szModel clenModel (segWriterNew false 4096 1)).1.dirExists = false :=
  writer_finish_empty szModel clenModel (segWriterNew false 4096 1) (by decide)

/-- One pooled file descriptor (`FileDescriptorWrapper`): the model keeps
only the `is_used` flag; opening a file always succeeds. -/
structure Fd where
  used : Bool
deriving DecidableEq, Repr

/-- `FileHandle`: the per-segment descriptor pool (the path is irrelevant
in the ideal-filesystem model). -/
structure FdHandle where
  descriptors : List Fd
deriving DecidableEq, Repr

/-- `FileDescriptorTableInner` plus the `limit` and `concurrency`
parameters of `FileDescriptorTable`. -/
structure FdTable where
  table : List (String × FdHandle)
  lru : List String
  size : Nat
  concurrency : Nat
  limit : Nat
deriving DecidableEq, Repr

/-- `FileDescriptorTable::new(limit, concurrency)`. -/
def fdtNew (limit concurrency : Nat) : FdTable := ⟨[], [], 0, concurrency, limit⟩

def alistGet : List (String × FdHandle) → String → Option FdHandle
  | [], _ => none
  | (k, v) :: rest, id => if k = id then some v else alistGet rest id

def alistSet : List (String × FdHandle) → String → FdHandle → List (String × FdHandle)
  | [], id, h => [(id, h)]
  | (k, v) :: rest, id, h => if k = id then (id, h) :: rest else (k, v) :: alistSet rest id h

def alistRemove : List (String × FdHandle) → String → List (String × FdHandle)
  | [], _ => []
  | (k, v) :: rest, id => if k = id then rest else (k, v) :: alistRemove rest id

/-- `LruList::remove`. -/
def lruRemove (l : List String) (id : String) : List String := l.filter fun x => x != id

/-- `LruList::refresh`: remove then push to the back. -/
def lruRefresh (l : List String) (id : String) : List String := lruRemove l id ++ [id]

/-- `LruList::get_least_recently_used`: pop the front and refresh it onto
the back, reporting the popped element. -/
def lruGetLeastRecentlyUsed (l : List String) : Option (String × List String) :=
  match l with
  | [] => none
  | front :: rest => some (front, lruRefresh rest front)

/-- `FileDescriptorTable::insert`: register the segment with an empty pool
and refresh it in the LRU list. -/
def fdtInsert (t : FdTable) (id : String) : FdTable :=
  { t with table := alistSet t.table id ⟨[]⟩, lru := lruRefresh t.lru id }

/-- `FileDescriptorTable::remove`: drop the entry, subtract its pool
length from `size`, drop the id from the LRU list. -/
def fdtRemove (t : FdTable) (id : String) : FdTable :=
  match alistGet t.table id with
  | none => { t with lru := lruRemove t.lru id }
  | some h =>
    { t with
      table := alistRemove t.table id,
      size := t.size - h.descriptors.length,
      lru := lruRemove t.lru id }

/-- Find the first descriptor whose `is_used` CAS from false to true
succeeds (sequential model of the spin loop; `none` models spinning
forever because every descriptor is held). -/
def findFreeIdx : List Fd → Nat → Option Nat
  | [], _ => none
  | f :: rest, i => if f.used then findFreeIdx rest (i + 1) else some i

def setUsed (l : List Fd) (i : Nat) (b : Bool) : List Fd := l.set i ⟨b⟩

/-- `FileDescriptorTable::access`: on an empty pool, lazily open
`concurrency` descriptors (the last one marked in use and returned),
add `concurrency` to `size` (the eviction test uses the fetched old size
plus one), and if the budget is exceeded evict the LRU entry's pool
(unless it is the accessed id). On a non-empty pool, grab the first free
descriptor. Returns the new table and the index of the held descriptor;
`none` models the panic on an unregistered id or an endless spin. -/
def fdtAccess (t : FdTable) (id : String) : Option (FdTable × Nat) :=
  match alistGet t.table id with
  | none => none
  | some h =>
    if h.descriptors.isEmpty then
      let pool := List.replicate (t.concurrency - 1) (⟨false⟩ : Fd) ++ [⟨true⟩]
      let t1 := { t with
        table := alistSet t.table id ⟨pool⟩,
        size := t.size + t.concurrency }
      let sizeNow := t.size + 1
      let t2 :=
        if t.limit < sizeNow then
          match lruGetLeastRecentlyUsed t1.lru with
          | none => t1
          | some (oldest, lru2) =>
            let t1' := { t1 with lru := lru2 }
            if oldest = id then t1'
            else
              match alistGet t1'.table oldest with
              | none => t1'
              | some oh =>
                { t1' with
                  table := alistSet t1'.table oldest ⟨[]⟩,
                  size := t1'.size - oh.descriptors.length }
        else t1
      some (t2, t.concurrency - 1)
    else
      match findFreeIdx h.descriptors 0 with
      | none => none
      | some i => some ({ t with table := alistSet t.table id ⟨setUsed h.descriptors i true⟩ }, i)

/-- `FileGuard::drop`: clear the `is_used` flag of the held descriptor. -/
def fdtDropGuard (t : FdTable) (id : String) (i : Nat) : FdTable :=
  match alistGet t.table id with
  | none => t
  | some h => { t with table := alistSet t.table id ⟨setUsed h.descriptors i false⟩ }

/-- `FileDescriptorTable::size`. -/
def fdtSize (t : FdTable) : Nat := t.size

/-- An access whose guard is dropped before the next step. -/
def accessDropped (t : FdTable) (id : String) : Option FdTable :=
  match fdtAccess t id with
  | none => none
  | some (t', i) => some (fdtDropGuard t' id i)

/-- The S3 table: limit 2, concurrency 1, ids "1", "2", "3" inserted. -/
def c7t0 : FdTable := fdtInsert (fdtInsert (fdtInsert (fdtNew 2 1) "1") "2") "3"

def c7t1 : Option FdTable := accessDropped c7t0 "1"

def c7t2 : Option FdTable := c7t1.bind fun t => accessDropped t "1"

def c7t3 : Option FdTable := c7t2.bind fun t => accessDropped t "2"

def c7t4 : Option FdTable := c7t3.bind fun t => accessDropped t "3"

def c7t5 : Option FdTable := c7t4.map fun t => fdtRemove t "3"

def c7t6 : Option FdTable := c7t5.map fun t => fdtRemove t "2"

def c7t7 : Option FdTable := c7t6.bind fun t => accessDropped t "1"

/-- C7: on the table with limit 2 and concurrency 1 holding ids "1", "2",
"3", the sequence access("1"); access("1"); access("2"); access("3");
remove("3"); remove("2"); access("1") — each guard dropped before the next
step — yields sizes 1, 1, 2, 2, 1, 0, 1, and the fourth access evicts the
pool of the least-recently-used id "1". -/
theorem descriptor_table_eviction :
    c7t1.map fdtSize = some 1 ∧ c7t2.map fdtSize = some 1 ∧
      c7t3.map fdtSize = some 2 ∧ c7t4.map fdtSize = some 2 ∧
      c7t5.map fdtSize = some 1 ∧ c7t6.map fdtSize = some 0 ∧
      c7t7.map fdtSize = some 1 ∧
      (c7t4.map fun t => alistGet t.table "1") = some (some ⟨[]⟩) := by decide

/-- The numeric fields of the tree `Config` (`src/src/config.rs`); `path`
and the compaction-strategy object carry no numeric defaults and are
omitted. -/
structure TreeConfig where
  block_size : Nat
  block_cache_size : Nat
  max_memtable_size : Nat
  levels : Nat
  flush_threads : Nat
deriving DecidableEq, Repr

/-- `Config::default` as written in the source: note it sets
`max_memtable_size: 128 * 1_024 * 1_024` even though the field's own doc
comment says "Defaults to 64 MiB, like RocksDB". -/
def configDefault : TreeConfig :=
  ⟨4096, 1024, 128 * 1024 * 1024, 7, 4⟩

/-- `Config::new(path)`: all numeric fields keep their `Default` values. -/
def configNew : TreeConfig := configDefault

/-- C8 (code bug): the default configuration sets `max_memtable_size` to
134217728 bytes (128 MiB), contradicting both the claim and the field's
doc comment, which say 64 MiB (67108864 bytes). -/
theorem config_default_max_memtable :
    configNew.max_memtable_size = 134217728 ∧
      configNew.max_memtable_size ≠ 67108864 := by decide

/-- `char::from_digit(m, 36)`: digits `0`-`9` then lowercase `a`-`z`. -/
def b36digit (m : Nat) : Char :=
  if m < 10 then Char.ofNat (48 + m) else Char.ofNat (87 + m)

/-- The digit-emitting loop of `to_base36`, little-endian. The loop runs
until the quotient is zero; `x / 36` strictly decreases, so fuel `x + 1`
always suffices. -/
def b36loop : Nat → Nat → List Char
  | 0, _ => []
  | fuel + 1, x =>
    if x / 36 = 0 then [b36digit (x % 36)]
    else b36digit (x % 36) :: b36loop fuel (x / 36)

/-- `to_base36(x)`: emit base-36 digits little-endian, then reverse. -/
def to_base36 (x : Nat) : List Char := (b36loop (x + 1) x).reverse

/-- Strict lexicographic order on character lists; for the ASCII output of
`to_base36` this is exactly Rust's `str` byte comparison. -/
def lexLtC : List Char → List Char → Bool
  | [], [] => false
  | [], _ :: _ => true
  | _ :: _, [] => false
  | a :: as, b :: bs =>
    decide (a.toNat < b.toNat) || (a.toNat == b.toNat && lexLtC as bs)

/-- Non-strict lexicographic order on character lists. -/
def lexLeC (a b : List Char) : Bool := !lexLtC b a

/-- C9 counterexample: `35 ≤ 36`, but `to_base36(35) = "z"` is
lexicographically greater than `to_base36(36) = "10"` — the unpadded
encoding is not order-preserving across digit-count boundaries. -/
theorem to_base36_order_cx :
    35 ≤ 36 ∧ lexLeC (to_base36 35) (to_base36 36) = false ∧
      to_base36 35 = ['z'] ∧ to_base36 36 = ['1', '0'] := by decide

/-- The digit loop on plain naturals, mirrored from `b36loop`. -/
def b36digitsLoop : Nat → Nat → List Nat
  | 0, _ => []
  | fuel + 1, x =>
    if x / 36 = 0 then [x % 36]
    else x % 36 :: b36digitsLoop fuel (x / 36)

theorem b36loop_eq_map : ∀ fuel x, b36loop fuel x = (b36digitsLoop fuel x).map b36digit := by
  intro fuel
  induction fuel with
  | zero => intro x; rfl
  | succ f ih =>
    intro x
    by_cases h : x / 36 = 0
    · simp [b36loop, b36digitsLoop, h]
    · simp [b36loop, b36digitsLoop, h, ih]

theorem b36digitsLoop_lt : ∀ fuel x, ∀ d ∈ b36digitsLoop fuel x, d < 36 := by
  intro fuel
  induction fuel with
  | zero => intro x d hd; simp [b36digitsLoop] at hd
  | succ f ih =>
    intro x d hd
    by_cases h : x / 36 = 0
    · simp [b36digitsLoop, h] at hd
      omega
    · simp [b36digitsLoop, h] at hd
      rcases hd with rfl | hd
      · omega
      · exact ih (x / 36) d hd

/-- Little-endian base-36 value of a digit list. -/
def valLE : List Nat → Nat
  | [] => 0
  | d :: l => d + 36 * valLE l

theorem b36digitsLoop_val : ∀ fuel x, x < fuel → valLE (b36digitsLoop fuel x) = x := by
  intro fuel
  induction fuel with
  | zero => intro x h; exact absurd h (Nat.not_lt_zero x)
  | succ f ih =>
    intro x h
    by_cases h0 : x / 36 = 0
    · simp [b36digitsLoop, h0, valLE]
      omega
    · have hx' : x / 36 < f := by omega
      simp [b36digitsLoop, h0, valLE, ih (x / 36) hx']
      omega

/-- Big-endian base-36 value of a digit list. -/
def valBE : List Nat → Nat
  | [] => 0
  | d :: l => d * 36 ^ l.length + valBE l

theorem valBE_append (l : List Nat) (d : Nat) : valBE (l ++ [d]) = 36 * valBE l + d := by
  induction l with
  | nil => simp [valBE]
  | cons c l ih =>
    simp [valBE, ih, List.length_append, pow_succ]
    ring

theorem valBE_reverse (l : List Nat) : valBE l.reverse = valLE l := by
  induction l with
  | nil => rfl
  | cons d l ih =>
    simp [valLE, List.reverse_cons, valBE_append, ih]
    ring

theorem valBE_lt (l : List Nat) (h : ∀ d ∈ l, d < 36) : valBE l < 36 ^ l.length := by
  induction l with
  | nil => simp [valBE]
  | cons d l ih =>
    have h1 : valBE l < 36 ^ l.length := ih fun d hd => h d (List.mem_cons_of_mem _ hd)
    have h2 : d + 1 ≤ 36 := h d (List.mem_cons_self _ _)
    have h3 : d * 36 ^ l.length + valBE l < (d + 1) * 36 ^ l.length := by
      have : (d + 1) * 36 ^ l.length = d * 36 ^ l.length + 36 ^ l.length := by ring
      omega
    have h4 : (d + 1) * 36 ^ l.length ≤ 36 * 36 ^ l.length :=
      Nat.mul_le_mul_right _ h2
    calc valBE (d :: l) = d * 36 ^ l.length + valBE l := rfl
      _ < (d + 1) * 36 ^ l.length := h3
      _ ≤ 36 * 36 ^ l.length := h4
      _ = 36 ^ (d :: l).length := by rw [List.length_cons, pow_succ]; ring

theorem valBE_lt_of_lexLt : ∀ {as bs : List Nat}, as.length = bs.length →
    (∀ d ∈ as, d < 36) → (∀ d ∈ bs, d < 36) → lexLtB as bs = true →
    valBE as < valBE bs
  | [], [], _, _, _, hlt => by simp [lexLtB] at hlt
  | [], _ :: _, hlen, _, _, _ => by simp at hlen
  | _ :: _, [], hlen, _, _, _ => by simp at hlen
  | a :: as, b :: bs, hlen, ha, hb, hlt => by
    simp only [List.length_cons, Nat.succ_inj] at hlen
    simp only [lexLtB, Bool.or_eq_true, decide_eq_true_eq, Bool.and_eq_true,
      beq_iff_eq] at hlt
    have hbsK : valBE bs < 36 ^ bs.length :=
      valBE_lt bs fun d hd => hb d (List.mem_cons_of_mem _ hd)
    have hasK : valBE as < 36 ^ as.length :=
      valBE_lt as fun d hd => ha d (List.mem_cons_of_mem _ hd)
    rcases hlt with hab | ⟨rfl, hrec⟩
    · have h1 : valBE (a :: as) < (a + 1) * 36 ^ as.length := by
        have : (a + 1) * 36 ^ as.length = a * 36 ^ as.length + 36 ^ as.length := by ring
        show a * 36 ^ as.length + valBE as < _
        omega
      have h2 : (a + 1) * 36 ^ as.length ≤ b * 36 ^ as.length :=
        Nat.mul_le_mul_right _ (by omega)
      have h3 : b * 36 ^ as.length ≤ valBE (b :: bs) := by
        show _ ≤ b * 36 ^ bs.length + valBE bs
        rw [hlen]
        omega
      omega
    · have hrec' : valBE as < valBE bs :=
        valBE_lt_of_lexLt hlen (fun d hd => ha d (List.mem_cons_of_mem _ hd))
          (fun d hd => hb d (List.mem_cons_of_mem _ hd)) hrec
      show a * 36 ^ as.length + valBE as < a * 36 ^ bs.length + valBE bs
      rw [hlen]
      omega

theorem b36digit_lt_iff : ∀ a < 36, ∀ b < 36,
    ((b36digit a).toNat < (b36digit b).toNat ↔ a < b) := by decide

theorem b36digit_eq_iff : ∀ a < 36, ∀ b < 36,
    ((b36digit a).toNat = (b36digit b).toNat ↔ a = b) := by decide

theorem lexLtB_of_lexLtC_map : ∀ {u v : List Nat}, (∀ d ∈ u, d < 36) →
    (∀ d ∈ v, d < 36) → lexLtC (u.map b36digit) (v.map b36digit) = true →
    lexLtB u v = true
  | [], [], _, _, hlt => by simp [lexLtC] at hlt
  | [], _ :: _, _, _, _ => rfl
  | _ :: _, [], _, _, hlt => by simp [lexLtC] at hlt
  | a :: u, b :: v, hu, hv, hlt => by
    have ha : a < 36 := hu a (List.mem_cons_self _ _)
    have hb : b < 36 := hv b (List.mem_cons_self _ _)
    simp only [List.map_cons, lexLtC, Bool.or_eq_true, decide_eq_true_eq,
      Bool.and_eq_true, beq_iff_eq] at hlt
    simp only [lexLtB, Bool.or_eq_true, decide_eq_true_eq, Bool.and_eq_true, beq_iff_eq]
    rcases hlt with h | ⟨heq, hrec⟩
    · exact .inl ((b36digit_lt_iff a ha b hb).mp h)
    · refine .inr ⟨(b36digit_eq_iff a ha b hb).mp heq, ?_⟩
      exact lexLtB_of_lexLtC_map (fun d hd => hu d (List.mem_cons_of_mem _ hd))
        (fun d hd => hv d (List.mem_cons_of_mem _ hd)) hrec

/-- C9 (amended): the base-36 encoding is order-preserving among values
whose encodings have the same length: for u32 values `x ≤ y` with
`to_base36(x)` and `to_base36(y)` of equal length,
`to_base36(x) ≤ to_base36(y)` lexicographically. (Across different
lengths the unpadded encoding can invert the order, see the
counterexample.) -/
theorem to_base36_order (x y : Nat) (hxy : x ≤ y) (hy : y < 2 ^ 32)
    (hlen : (to_base36 x).length = (to_base36 y).length) :
    lexLeC (to_base36 x) (to_base36 y) = true := by
  unfold lexLeC
  rw [Bool.not_eq_true']
  by_contra h
  rw [Bool.not_eq_false] at h
  have hmx : to_base36 x = (b36digitsLoop (x + 1) x).reverse.map b36digit := by
    rw [to_base36, b36loop_eq_map, List.map_reverse]
  have hmy : to_base36 y = (b36digitsLoop (y + 1) y).reverse.map b36digit := by
    rw [to_base36, b36loop_eq_map, List.map_reverse]
  have hbx : ∀ d ∈ (b36digitsLoop (x + 1) x).reverse, d < 36 := fun d hd =>
    b36digitsLoop_lt (x + 1) x d (List.mem_reverse.mp hd)
  have hby : ∀ d ∈ (b36digitsLoop (y + 1) y).reverse, d < 36 := fun d hd =>
    b36digitsLoop_lt (y + 1) y d (List.mem_reverse.mp hd)
  rw [hmx, hmy] at h
  have hlt := lexLtB_of_lexLtC_map hby hbx h
  have hlen' : (b36digitsLoop (y + 1) y).reverse.length =
      (b36digitsLoop (x + 1) x).reverse.length := by
    rw [hmx, hmy] at hlen
    simpa using hlen.symm
  have hval := valBE_lt_of_lexLt hlen' hby hbx hlt
  rw [valBE_reverse, valBE_reverse, b36digitsLoop_val (x + 1) x (by omega),
    b36digitsLoop_val (y + 1) y (by omega)] at hval
  omega

/-- Witness: `to_base36_order` at `x = 2`, `y = 11` (encodings `"2"` and
`"b"`, both one digit). -/
theorem to_base36_order_witness :
    2 ≤ 11 ∧ lexLeC (to_base36 2) (to_base36 11) = true :=
  ⟨by decide, to_base36_order 2 11 (by decide) (by decide) (by decide)⟩
